import Mathlib

/-!
# Verification of the numerical-integration notebook

Shallow embedding of the quadrature functions defined in
`notebooks/00a - Computing integrals.ipynb`.  Tensors of floats are
modelled as `List ℚ` (exact arithmetic), integrands as `ℚ → ℚ`.
`tf.slice`, `tf.reduce_sum`, `tf.reduce_mean` and Python extended
slicing are embedded faithfully; elementwise tensor arithmetic becomes
`List.zipWith` / `List.map`.

The notebook file contains two revisions of the document.  The second
(final) revision defines `left_riemann_sum`, `right_riemann_sum`,
`trapezoidal_rule` and `simpson_rule`; the first revision's
`left_riemann_sum` / `right_riemann_sum` reference the unbound name `t`
and are embedded separately (`V1` namespace) with explicit name lookup.
-/

namespace TFIntegrals

/-- Embedding of `tf.slice(h, [b], [size])`: the sub-tensor of `h` starting
at index `b` of length `size`. -/
def tf_slice (h : List ℚ) (b size : ℕ) : List ℚ :=
  (h.drop b).take size

/-- Embedding of `tf.reduce_sum`: sum of all entries. -/
def reduce_sum (l : List ℚ) : ℚ :=
  l.sum

/-- Embedding of `tf.reduce_mean`: arithmetic mean of all entries. -/
def reduce_mean (l : List ℚ) : ℚ :=
  l.sum / l.length

/-- Embedding of
```python
def left_riemann_sum(f, h):
    left_points = tf.slice(h, [0], [h.get_shape()[0] - 1])
    right_points = tf.slice(h, [1], [h.get_shape()[0] - 1])
    intervals_length = right_points - left_points
    y = f(left_points)
    return tf.reduce_sum(y * intervals_length)
```
(final revision of the notebook). -/
def left_riemann_sum (f : ℚ → ℚ) (h : List ℚ) : ℚ :=
  let left_points := tf_slice h 0 (h.length - 1)
  let right_points := tf_slice h 1 (h.length - 1)
  let intervals_length := List.zipWith (· - ·) right_points left_points
  let y := left_points.map f
  reduce_sum (List.zipWith (· * ·) y intervals_length)

/-- Embedding of
```python
def right_riemann_sum(f, h):
    left_points = tf.slice(h, [0], [h.get_shape()[0] - 1])
    right_points = tf.slice(h, [1], [h.get_shape()[0] - 1])
    intervals_length = right_points - left_points
    y = f(right_points)
    return tf.reduce_sum(y * intervals_length)
```
(final revision of the notebook). -/
def right_riemann_sum (f : ℚ → ℚ) (h : List ℚ) : ℚ :=
  let left_points := tf_slice h 0 (h.length - 1)
  let right_points := tf_slice h 1 (h.length - 1)
  let intervals_length := List.zipWith (· - ·) right_points left_points
  let y := right_points.map f
  reduce_sum (List.zipWith (· * ·) y intervals_length)

/-- Embedding of
```python
def trapezoidal_rule(f, h):
    left_points = tf.slice(h, [0], [h.get_shape()[0] - 1])
    right_points = tf.slice(h, [1], [h.get_shape()[0] - 1])
    intervals_length = right_points - left_points
    left_y = f(left_points)
    right_y = f(right_points)
    interval_height = left_y + right_y
    return tf.reduce_sum(1/2 * (intervals_length) * (interval_height))
```
The scalar `1/2` multiplies the tensor elementwise. -/
def trapezoidal_rule (f : ℚ → ℚ) (h : List ℚ) : ℚ :=
  let left_points := tf_slice h 0 (h.length - 1)
  let right_points := tf_slice h 1 (h.length - 1)
  let intervals_length := List.zipWith (· - ·) right_points left_points
  let left_y := left_points.map f
  let right_y := right_points.map f
  let interval_height := List.zipWith (· + ·) left_y right_y
  reduce_sum (List.zipWith (· * ·) (intervals_length.map (fun x => 1/2 * x)) interval_height)

/-- Every other element of a list, starting with the first (step-2 stride). -/
def everyOther : List ℚ → List ℚ
  | [] => []
  | [a] => [a]
  | a :: _ :: t => a :: everyOther t

/-- Python extended slice `h[s : -1 : 2]`: indices `s, s+2, …` strictly below
the last index `h.length - 1`. -/
def pyslice (h : List ℚ) (s : ℕ) : List ℚ :=
  everyOther ((h.drop s).take (h.length - 1 - s))

/-- Embedding of
```python
def simpson_rule(f, h):
    left_points = tf.slice(h, [0], [h.get_shape()[0] - 1])
    right_points = tf.slice(h, [1], [h.get_shape()[0] - 1])
    interval_length = right_points - left_points
    average_interval_lenght = tf.reduce_mean(interval_length)
    return average_interval_lenght / 3 * (
        f(h[0]) + 2 * tf.reduce_sum(f(h[1:-1:2])) + 4*tf.reduce_sum(f(h[2:-1:2])) + f(h[-1]))
```
`h[0]` and `h[-1]` are the first and last entry (embedded with `getD`,
default irrelevant for the nonempty partitions all claims use);
`f` applied to a tensor maps elementwise. -/
def simpson_rule (f : ℚ → ℚ) (h : List ℚ) : ℚ :=
  let left_points := tf_slice h 0 (h.length - 1)
  let right_points := tf_slice h 1 (h.length - 1)
  let interval_length := List.zipWith (· - ·) right_points left_points
  let average_interval_lenght := reduce_mean interval_length
  average_interval_lenght / 3 *
    (f (h.getD 0 0) + 2 * reduce_sum ((pyslice h 1).map f)
      + 4 * reduce_sum ((pyslice h 2).map f) + f (h.getD (h.length - 1) 0))

/-- Embedding of `tf.linspace a b (n+1)` as used in the notebook: the uniform
partition of `[a, b]` with `n` sub-intervals, points `a + (b - a) * i / n`. -/
def uniformPartition (a b : ℚ) (n : ℕ) : List ℚ :=
  (List.range (n + 1)).map (fun i : ℕ => a + (b - a) * (i : ℚ) / (n : ℚ))

/-- Formula the spec states for `simpson_rule`, written from the spec words
for comparison with the implementation:
`average_spacing/3 * ( f(h[0]) + 2·Σ f(h at even interior indices)
+ 4·Σ f(h at odd interior indices) + f(h[last]) )`, where `average_spacing`
is the mean of the consecutive differences `h[i+1] - h[i]`. -/
def simpson_formula_spec (f : ℚ → ℚ) (h : List ℚ) : ℚ :=
  let n := h.length
  let average_spacing :=
    (∑ i ∈ Finset.range (n - 1), (h.getD (i + 1) 0 - h.getD i 0)) / ((n - 1 : ℕ) : ℚ)
  average_spacing / 3 *
    (f (h.getD 0 0)
      + 2 * ∑ i ∈ (Finset.range n).filter (fun i => 0 < i ∧ i < n - 1 ∧ i % 2 = 0),
          f (h.getD i 0)
      + 4 * ∑ i ∈ (Finset.range n).filter (fun i => 0 < i ∧ i < n - 1 ∧ i % 2 = 1),
          f (h.getD i 0)
      + f (h.getD (n - 1) 0))

namespace V1

/-- Tensor-valued global bindings of the first revision of the notebook at
the point where its `left_riemann_sum` / `right_riemann_sum` run.  The
document binds only `pi`, `tf`, `plt` and the two function names, none of
which is a tensor; in particular the name `t` used inside both function
bodies is never bound anywhere in that document. -/
def tensorGlobals : List (String × List ℚ) := []

/-- Python name resolution: evaluating a name with no binding in scope
raises `NameError: name <n> is not defined`. -/
def resolveName (n : String) : Except String (List ℚ) :=
  match tensorGlobals.find? (fun p => p.1 = n) with
  | some p => Except.ok p.2
  | none => Except.error ("NameError: name " ++ n ++ " is not defined")

/-- Embedding of the FIRST revision of
```python
def left_riemann_sum(f, h):
    left_points = tf.slice(h, [0], [t.get_shape()[0] - 1])
    right_points = tf.slice(h, [1], [t.get_shape()[0] - 1])
    intervals_length = right_points - left_points
    y = f(left_points)
    return tf.reduce_sum(y * intervals_length)
```
whose body reads the shape of the unbound name `t` instead of `h`. -/
def left_riemann_sum (f : ℚ → ℚ) (h : List ℚ) : Except String ℚ :=
  (resolveName "t").bind (fun t =>
    let left_points := tf_slice h 0 (t.length - 1)
    let right_points := tf_slice h 1 (t.length - 1)
    let intervals_length := List.zipWith (· - ·) right_points left_points
    let y := left_points.map f
    Except.ok (reduce_sum (List.zipWith (· * ·) y intervals_length)))

/-- Embedding of the FIRST revision of `right_riemann_sum`, identical to
`V1.left_riemann_sum` except that it samples `f` at the right points; it
reads the shape of the same unbound name `t`. -/
def right_riemann_sum (f : ℚ → ℚ) (h : List ℚ) : Except String ℚ :=
  (resolveName "t").bind (fun t =>
    let left_points := tf_slice h 0 (t.length - 1)
    let right_points := tf_slice h 1 (t.length - 1)
    let intervals_length := List.zipWith (· - ·) right_points left_points
    let y := right_points.map f
    Except.ok (reduce_sum (List.zipWith (· * ·) y intervals_length)))

end V1

/-! ## Adjacent-pair sums

All four quadrature functions are sums over the adjacent pairs
`(h[i], h[i+1])` of the partition.  `pairSum` is the canonical such sum;
the lemmas below rewrite each function into this form. -/

/-- Sum over adjacent pairs: `pairSum g [x₀, …, xₙ] = Σ_{i<n} g xᵢ xᵢ₊₁`. -/
def pairSum (g : ℚ → ℚ → ℚ) : List ℚ → ℚ
  | a :: b :: t => g a b + pairSum g (b :: t)
  | _ => 0

theorem zipWith_take_left {α β γ : Type} (g : α → β → γ) :
    ∀ (l : List α) (l2 : List β) (n : ℕ), l2.length ≤ n →
      List.zipWith g (l.take n) l2 = List.zipWith g l l2 := by
  intro l
  induction l with
  | nil => intro l2 n _; simp
  | cons a t ih =>
    intro l2 n hn
    cases l2 with
    | nil => simp
    | cons b t2 =>
      cases n with
      | zero => simp at hn
      | succ m =>
        simp only [List.take_succ_cons, List.zipWith_cons_cons]
        rw [ih t2 m (Nat.le_of_succ_le_succ hn)]

theorem zipWith_take_right {α β γ : Type} (g : α → β → γ) :
    ∀ (l : List α) (l2 : List β) (n : ℕ), l.length ≤ n →
      List.zipWith g l (l2.take n) = List.zipWith g l l2 := by
  intro l
  induction l with
  | nil => intro l2 n _; simp
  | cons a t ih =>
    intro l2 n hn
    cases l2 with
    | nil => simp
    | cons b t2 =>
      cases n with
      | zero => simp at hn
      | succ m =>
        simp only [List.take_succ_cons, List.zipWith_cons_cons]
        rw [ih t2 m (Nat.le_of_succ_le_succ hn)]

theorem tf_slice_zero (h : List ℚ) : tf_slice h 0 (h.length - 1) = h.take (h.length - 1) := by
  simp [tf_slice]

theorem tf_slice_one (h : List ℚ) : tf_slice h 1 (h.length - 1) = h.drop 1 := by
  unfold tf_slice
  exact List.take_of_length_le (by simp)

theorem zipForm_left (f : ℚ → ℚ) :
    ∀ h : List ℚ,
      (List.zipWith (· * ·) (h.map f) (List.zipWith (· - ·) (h.drop 1) h)).sum
        = pairSum (fun a b => f a * (b - a)) h := by
  intro h
  induction h with
  | nil => simp [pairSum]
  | cons a t ih =>
    cases t with
    | nil => simp [pairSum]
    | cons b t2 =>
      simp only [List.map_cons, List.drop_succ_cons, List.drop_zero,
        List.zipWith_cons_cons, List.sum_cons, pairSum] at ih ⊢
      rw [ih]

theorem left_riemann_sum_eq_pairSum (f : ℚ → ℚ) (h : List ℚ) :
    left_riemann_sum f h = pairSum (fun a b => f a * (b - a)) h := by
  rw [← zipForm_left]
  unfold left_riemann_sum reduce_sum
  rw [tf_slice_one, tf_slice_zero]
  simp only []
  rw [zipWith_take_right _ _ _ _ (by simp), List.map_take,
    zipWith_take_left _ _ _ _ (by simp)]

theorem zipForm_right (f : ℚ → ℚ) :
    ∀ h : List ℚ,
      (List.zipWith (· * ·) ((h.drop 1).map f) (List.zipWith (· - ·) (h.drop 1) h)).sum
        = pairSum (fun a b => f b * (b - a)) h := by
  intro h
  induction h with
  | nil => simp [pairSum]
  | cons a t ih =>
    cases t with
    | nil => simp [pairSum]
    | cons b t2 =>
      simp only [List.map_cons, List.drop_succ_cons, List.drop_zero,
        List.zipWith_cons_cons, List.sum_cons, pairSum] at ih ⊢
      rw [ih]

theorem right_riemann_sum_eq_pairSum (f : ℚ → ℚ) (h : List ℚ) :
    right_riemann_sum f h = pairSum (fun a b => f b * (b - a)) h := by
  rw [← zipForm_right]
  unfold right_riemann_sum reduce_sum
  rw [tf_slice_one, tf_slice_zero]
  simp only []
  rw [zipWith_take_right _ _ _ _ (by simp)]

theorem zipForm_trap (f : ℚ → ℚ) :
    ∀ h : List ℚ,
      (List.zipWith (· * ·) ((List.zipWith (· - ·) (h.drop 1) h).map (fun x => 1/2 * x))
          (List.zipWith (· + ·) (h.map f) ((h.drop 1).map f))).sum
        = pairSum (fun a b => 1/2 * (b - a) * (f a + f b)) h := by
  intro h
  induction h with
  | nil => simp [pairSum]
  | cons a t ih =>
    cases t with
    | nil => simp [pairSum]
    | cons b t2 =>
      simp only [List.map_cons, List.drop_succ_cons, List.drop_zero,
        List.zipWith_cons_cons, List.sum_cons, pairSum] at ih ⊢
      rw [ih]

theorem trapezoidal_rule_eq_pairSum (f : ℚ → ℚ) (h : List ℚ) :
    trapezoidal_rule f h = pairSum (fun a b => 1/2 * (b - a) * (f a + f b)) h := by
  rw [← zipForm_trap]
  unfold trapezoidal_rule reduce_sum
  rw [tf_slice_one, tf_slice_zero]
  simp only []
  rw [zipWith_take_right _ _ _ _ (by simp), List.map_take,
    zipWith_take_left _ _ _ _ (by simp)]

theorem pairSum_congr (g g' : ℚ → ℚ → ℚ) (hg : ∀ a b, g a b = g' a b) :
    ∀ h : List ℚ, pairSum g h = pairSum g' h := by
  intro h
  induction h with
  | nil => rfl
  | cons a t ih =>
    cases t with
    | nil => rfl
    | cons b t2 => simp only [pairSum, hg, ih]

theorem pairSum_eq_sum_range (g : ℚ → ℚ → ℚ) :
    ∀ h : List ℚ,
      pairSum g h = ∑ i ∈ Finset.range (h.length - 1), g (h.getD i 0) (h.getD (i + 1) 0) := by
  intro h
  induction h with
  | nil => simp [pairSum]
  | cons a t ih =>
    cases t with
    | nil => simp [pairSum]
    | cons b t2 =>
      have hlen : (a :: b :: t2).length - 1 = ((b :: t2).length - 1) + 1 := by simp
      rw [show pairSum g (a :: b :: t2) = g a b + pairSum g (b :: t2) from rfl, ih, hlen,
        Finset.sum_range_succ']
      have hc : ∀ i ∈ Finset.range ((b :: t2).length - 1),
          g ((a :: b :: t2).getD (i + 1) 0) ((a :: b :: t2).getD (i + 1 + 1) 0)
            = g ((b :: t2).getD i 0) ((b :: t2).getD (i + 1) 0) := by
        intro i _
        rfl
      rw [Finset.sum_congr rfl hc]
      exact add_comm _ _

theorem pairSum_telescope (F : ℚ → ℚ) :
    ∀ h : List ℚ,
      pairSum (fun a b => F b - F a) h = F (h.getD (h.length - 1) 0) - F (h.getD 0 0) := by
  intro h
  induction h with
  | nil => simp [pairSum]
  | cons a t ih =>
    cases t with
    | nil => simp [pairSum]
    | cons b t2 =>
      rw [show pairSum (fun a b => F b - F a) (a :: b :: t2)
            = (F b - F a) + pairSum (fun a b => F b - F a) (b :: t2) from rfl, ih]
      have hlen : (a :: b :: t2).length - 1 = ((b :: t2).length - 1) + 1 := by simp
      rw [hlen, List.getD_cons_succ]
      have ha : (a :: b :: t2).getD 0 0 = a := rfl
      have hb : (b :: t2).getD 0 0 = b := rfl
      rw [ha, hb]
      ring

theorem pairSum_snoc (g : ℚ → ℚ → ℚ) :
    ∀ (l : List ℚ) (x : ℚ),
      pairSum g (l ++ [x]) = pairSum g l + l.getLast?.elim 0 (fun z => g z x) := by
  intro l
  induction l with
  | nil => intro x; simp [pairSum]
  | cons a t ih =>
    intro x
    cases t with
    | nil => simp [pairSum]
    | cons b t2 =>
      rw [show (a :: b :: t2) ++ [x] = a :: ((b :: t2) ++ [x]) from rfl]
      rw [show pairSum g (a :: ((b :: t2) ++ [x]))
            = g a b + pairSum g ((b :: t2) ++ [x]) from rfl, ih]
      rw [List.getLast?_cons_cons]
      rw [show pairSum g (a :: b :: t2) = g a b + pairSum g (b :: t2) from rfl]
      ring

theorem pairSum_reverse (g : ℚ → ℚ → ℚ) :
    ∀ h : List ℚ, pairSum g h.reverse = pairSum (fun a b => g b a) h := by
  intro h
  induction h with
  | nil => rfl
  | cons a t ih =>
    rw [List.reverse_cons, pairSum_snoc, ih]
    cases t with
    | nil => simp [pairSum]
    | cons b t2 =>
      rw [List.getLast?_reverse]
      rw [show pairSum (fun a b => g b a) (a :: b :: t2)
            = g b a + pairSum (fun a b => g b a) (b :: t2) from rfl]
      simp [add_comm]

theorem pairSum_neg (g : ℚ → ℚ → ℚ) :
    ∀ h : List ℚ, pairSum (fun a b => -(g a b)) h = -pairSum g h := by
  intro h
  induction h with
  | nil => simp [pairSum]
  | cons a t ih =>
    cases t with
    | nil => simp [pairSum]
    | cons b t2 =>
      rw [show pairSum (fun a b => -(g a b)) (a :: b :: t2)
            = -(g a b) + pairSum (fun a b => -(g a b)) (b :: t2) from rfl, ih]
      rw [show pairSum g (a :: b :: t2) = g a b + pairSum g (b :: t2) from rfl]
      ring

theorem pairSum_trap_avg (f : ℚ → ℚ) :
    ∀ h : List ℚ,
      pairSum (fun a b => 1/2 * (b - a) * (f a + f b)) h
        = (pairSum (fun a b => f a * (b - a)) h + pairSum (fun a b => f b * (b - a)) h) / 2 := by
  intro h
  induction h with
  | nil => simp [pairSum]
  | cons a t ih =>
    cases t with
    | nil => simp [pairSum]
    | cons b t2 =>
      rw [show pairSum (fun a b => 1/2 * (b - a) * (f a + f b)) (a :: b :: t2)
            = 1/2 * (b - a) * (f a + f b)
              + pairSum (fun a b => 1/2 * (b - a) * (f a + f b)) (b :: t2) from rfl, ih]
      rw [show pairSum (fun a b => f a * (b - a)) (a :: b :: t2)
            = f a * (b - a) + pairSum (fun a b => f a * (b - a)) (b :: t2) from rfl]
      rw [show pairSum (fun a b => f b * (b - a)) (a :: b :: t2)
            = f b * (b - a) + pairSum (fun a b => f b * (b - a)) (b :: t2) from rfl]
      ring

/-- The trapezoidal rule is the average of the two Riemann sums. -/
theorem trap_eq_avg (f : ℚ → ℚ) (h : List ℚ) :
    trapezoidal_rule f h = (left_riemann_sum f h + right_riemann_sum f h) / 2 := by
  rw [trapezoidal_rule_eq_pairSum, left_riemann_sum_eq_pairSum, right_riemann_sum_eq_pairSum,
    pairSum_trap_avg]

theorem uniformPartition_length (a b : ℚ) (n : ℕ) :
    (uniformPartition a b n).length = n + 1 := by
  simp [uniformPartition]

theorem uniformPartition_getD (a b : ℚ) (n i : ℕ) (hi : i < n + 1) :
    (uniformPartition a b n).getD i 0 = a + (b - a) * i / n := by
  simp [uniformPartition, List.getD_eq_getElem?_getD, List.getElem?_map,
    List.getElem?_range, hi]

/-! ## Claim theorems -/

/-- C1 (code bug): the spec formula for `simpson_rule` puts the coefficient 2
on the even interior points and 4 on the odd interior points, matching the
notebook's own markdown; the code instead puts 2 on `h[1:-1:2]` (odd interior
indices) and 4 on `h[2:-1:2]` (even interior indices).  On the integrand
f(x) = x² and the uniform partition [0, 1/2, 1] the code returns 1/4 while
the spec formula gives 1/3. -/
theorem C1_simpson_swapped_coefficients :
    simpson_rule (fun x => x * x) [0, 1/2, 1] = 1/4
      ∧ simpson_formula_spec (fun x => x * x) [0, 1/2, 1] = 1/3 := by
  constructor
  · norm_num [simpson_rule, tf_slice, reduce_sum, reduce_mean, pyslice, everyOther]
  · norm_num [simpson_formula_spec, Finset.sum_filter, Finset.sum_range_succ]

/-- C2 counterexample: called on the even-length partition [0, 1, 2, 3],
`simpson_rule` returns the number 13/3; it does not fail — no validation or
error path exists anywhere in the code. -/
theorem C2_even_length_returns_number :
    simpson_rule (fun x => x) [0, 1, 2, 3] = 13/3 := by
  norm_num [simpson_rule, tf_slice, reduce_sum, reduce_mean, pyslice, everyOther]

/-- C2 amended: none of the four quadrature functions validates its partition
argument; each is total and returns a number on every input.  For every
integrand f: the non-monotonic partition [0, 2, 1] is accepted by the first
three (with mixed-sign interval lengths), the even-length partition
[0, 1, 2, 3] is accepted by `simpson_rule`, and the too-short partition [5]
yields the number 0 rather than an error. -/
theorem C2_no_validation (f : ℚ → ℚ) :
    left_riemann_sum f [0, 2, 1] = 2 * f 0 - f 2
      ∧ right_riemann_sum f [0, 2, 1] = 2 * f 2 - f 1
      ∧ trapezoidal_rule f [0, 2, 1] = f 0 + f 2 / 2 - f 1 / 2
      ∧ simpson_rule f [0, 1, 2, 3] = (f 0 + 2 * f 1 + 4 * f 2 + f 3) / 3
      ∧ left_riemann_sum f [5] = 0 := by
  refine ⟨?_, ?_, ?_, ?_, ?_⟩ <;>
    norm_num [left_riemann_sum, right_riemann_sum, trapezoidal_rule, simpson_rule,
      tf_slice, reduce_sum, reduce_mean, pyslice, everyOther] <;>
    ring

/-- C3 (code bug): on the constant integrand 1 over the strictly increasing
uniform partition [0, 1/2, 1] (span 1, odd length 3), the first three rules
return exactly 1 · (1 − 0) = 1 as the claim requires, but `simpson_rule`
returns 2/3: its swapped coefficients make the weights sum to 4 instead
of 6 on a 2-interval partition. -/
theorem C3_simpson_constant_not_exact :
    left_riemann_sum (fun _ => (1 : ℚ)) [0, 1/2, 1] = 1
      ∧ right_riemann_sum (fun _ => (1 : ℚ)) [0, 1/2, 1] = 1
      ∧ trapezoidal_rule (fun _ => (1 : ℚ)) [0, 1/2, 1] = 1
      ∧ simpson_rule (fun _ => (1 : ℚ)) [0, 1/2, 1] = 2/3 := by
  refine ⟨?_, ?_, ?_, ?_⟩ <;>
    norm_num [left_riemann_sum, right_riemann_sum, trapezoidal_rule, simpson_rule,
      tf_slice, reduce_sum, reduce_mean, pyslice, everyOther]

/-- C4: for every integrand f and partition h of length n+1 (n ≥ 1),
`left_riemann_sum` returns `Σ_{i<n} (h[i+1] − h[i]) · f(h[i])` and
`right_riemann_sum` returns `Σ_{i<n} (h[i+1] − h[i]) · f(h[i+1])`. -/
theorem C4_riemann_sum_contracts (f : ℚ → ℚ) (h : List ℚ) (n : ℕ)
    (hlen : h.length = n + 1) (hn : 1 ≤ n) :
    left_riemann_sum f h
        = ∑ i ∈ Finset.range n, (h.getD (i + 1) 0 - h.getD i 0) * f (h.getD i 0)
      ∧ right_riemann_sum f h
        = ∑ i ∈ Finset.range n, (h.getD (i + 1) 0 - h.getD i 0) * f (h.getD (i + 1) 0) := by
  constructor
  · rw [left_riemann_sum_eq_pairSum, pairSum_eq_sum_range, hlen]
    simp only [Nat.add_sub_cancel]
    exact Finset.sum_congr rfl (fun i _ => by ring)
  · rw [right_riemann_sum_eq_pairSum, pairSum_eq_sum_range, hlen]
    simp only [Nat.add_sub_cancel]
    exact Finset.sum_congr rfl (fun i _ => by ring)

/-- Witness for C4 at f(x) = x, h = [0, 1, 2], n = 2. -/
theorem C4_riemann_sum_contracts_witness :
    (([0, 1, 2] : List ℚ).length = 2 + 1 ∧ 1 ≤ 2)
      ∧ (left_riemann_sum (fun x => x) [0, 1, 2]
          = ∑ i ∈ Finset.range 2,
              (([0, 1, 2] : List ℚ).getD (i + 1) 0 - ([0, 1, 2] : List ℚ).getD i 0)
                * ([0, 1, 2] : List ℚ).getD i 0
        ∧ right_riemann_sum (fun x => x) [0, 1, 2]
          = ∑ i ∈ Finset.range 2,
              (([0, 1, 2] : List ℚ).getD (i + 1) 0 - ([0, 1, 2] : List ℚ).getD i 0)
                * ([0, 1, 2] : List ℚ).getD (i + 1) 0) :=
  ⟨⟨rfl, by norm_num⟩, C4_riemann_sum_contracts (fun x => x) [0, 1, 2] 2 rfl (by norm_num)⟩

/-- C5: for every integrand f and partition h of length ≥ 2,
`trapezoidal_rule` returns `Σ_{i<n} ½(h[i+1] − h[i])(f(h[i]) + f(h[i+1]))`,
which equals the average of the left and right Riemann sums. -/
theorem C5_trapezoid_contract (f : ℚ → ℚ) (h : List ℚ) (hlen : 2 ≤ h.length) :
    trapezoidal_rule f h
        = ∑ i ∈ Finset.range (h.length - 1),
            1/2 * (h.getD (i + 1) 0 - h.getD i 0) * (f (h.getD i 0) + f (h.getD (i + 1) 0))
      ∧ trapezoidal_rule f h = (left_riemann_sum f h + right_riemann_sum f h) / 2 := by
  refine ⟨?_, trap_eq_avg f h⟩
  rw [trapezoidal_rule_eq_pairSum, pairSum_eq_sum_range]

/-- Witness for C5 at f(x) = x, h = [0, 1, 2]. -/
theorem C5_trapezoid_contract_witness :
    2 ≤ ([0, 1, 2] : List ℚ).length
      ∧ (trapezoidal_rule (fun x => x) [0, 1, 2]
          = ∑ i ∈ Finset.range (([0, 1, 2] : List ℚ).length - 1),
              1/2 * (([0, 1, 2] : List ℚ).getD (i + 1) 0 - ([0, 1, 2] : List ℚ).getD i 0)
                * (([0, 1, 2] : List ℚ).getD i 0 + ([0, 1, 2] : List ℚ).getD (i + 1) 0)
        ∧ trapezoidal_rule (fun x => x) [0, 1, 2]
          = (left_riemann_sum (fun x => x) [0, 1, 2]
              + right_riemann_sum (fun x => x) [0, 1, 2]) / 2) :=
  ⟨by norm_num, C5_trapezoid_contract (fun x => x) [0, 1, 2] (by norm_num)⟩

/-- C6: for every monotonic integrand f and strictly increasing partition h of
length ≥ 2, the trapezoidal estimate lies between the left and right Riemann
sums. -/
theorem C6_trapezoid_bracketed (f : ℚ → ℚ) (h : List ℚ)
    (hf : Monotone f ∨ Antitone f) (hmono : List.Chain' (· < ·) h)
    (hlen : 2 ≤ h.length) :
    min (left_riemann_sum f h) (right_riemann_sum f h) ≤ trapezoidal_rule f h
      ∧ trapezoidal_rule f h ≤ max (left_riemann_sum f h) (right_riemann_sum f h) := by
  rw [trap_eq_avg]
  constructor
  · rcases le_total (left_riemann_sum f h) (right_riemann_sum f h) with hle | hle
    · rw [min_eq_left hle]; linarith
    · rw [min_eq_right hle]; linarith
  · rcases le_total (left_riemann_sum f h) (right_riemann_sum f h) with hle | hle
    · rw [max_eq_right hle]; linarith
    · rw [max_eq_left hle]; linarith

/-- Witness for C6 at f(x) = x (monotone), h = [0, 1, 2]. -/
theorem C6_trapezoid_bracketed_witness :
    (Monotone (fun x : ℚ => x) ∨ Antitone (fun x : ℚ => x))
      ∧ List.Chain' (· < ·) ([0, 1, 2] : List ℚ)
      ∧ 2 ≤ ([0, 1, 2] : List ℚ).length
      ∧ (min (left_riemann_sum (fun x => x) [0, 1, 2])
            (right_riemann_sum (fun x => x) [0, 1, 2])
            ≤ trapezoidal_rule (fun x => x) [0, 1, 2]
        ∧ trapezoidal_rule (fun x => x) [0, 1, 2]
            ≤ max (left_riemann_sum (fun x => x) [0, 1, 2])
                (right_riemann_sum (fun x => x) [0, 1, 2])) :=
  ⟨Or.inl monotone_id, by norm_num, by norm_num,
    C6_trapezoid_bracketed (fun x => x) [0, 1, 2] (Or.inl monotone_id)
      (by norm_num) (by norm_num)⟩

/-- C7 (code bug): on f(x) = x² and the uniform odd-length partition
`uniformPartition 0 1 2 = [0, 1/2, 1]` of [0, 1], `simpson_rule` returns
1/4, not the exact value 1/3 the claim requires: the swapped 2/4
coefficients break the exactness of Simpson's rule. -/
theorem C7_simpson_square_not_exact :
    simpson_rule (fun x => x * x) (uniformPartition 0 1 2) = 1/4 ∧ (1/4 : ℚ) ≠ 1/3 := by
  have hu : uniformPartition 0 1 2 = [0, 1/2, 1] := by
    norm_num [uniformPartition, List.range_succ]
  rw [hu]
  constructor
  · norm_num [simpson_rule, tf_slice, reduce_sum, reduce_mean, pyslice, everyOther]
  · norm_num

/-- C8: the trapezoidal rule integrates f(x) = x exactly over every uniform
partition of [0, 1] with n ≥ 1 sub-intervals, returning 1/2. -/
theorem C8_trapezoid_exact_linear (n : ℕ) (hn : 1 ≤ n) :
    trapezoidal_rule (fun x => x) (uniformPartition 0 1 n) = 1/2 := by
  have h1 : trapezoidal_rule (fun x => x) (uniformPartition 0 1 n)
      = pairSum (fun a b => (fun x => x * x / 2) b - (fun x => x * x / 2) a)
          (uniformPartition 0 1 n) := by
    rw [trapezoidal_rule_eq_pairSum]
    exact pairSum_congr _ _ (fun a b => by ring) _
  rw [h1, pairSum_telescope, uniformPartition_length]
  simp only [Nat.add_sub_cancel]
  rw [uniformPartition_getD 0 1 n n (by omega), uniformPartition_getD 0 1 n 0 (by omega)]
  have hn0 : (n : ℚ) ≠ 0 := Nat.cast_ne_zero.mpr (by omega)
  field_simp

/-- Witness for C8 at n = 2. -/
theorem C8_trapezoid_exact_linear_witness :
    1 ≤ 2 ∧ trapezoidal_rule (fun x => x) (uniformPartition 0 1 2) = 1/2 :=
  ⟨by norm_num, C8_trapezoid_exact_linear 2 (by norm_num)⟩

/-- C9: in the first revision of the notebook document, every call of
`left_riemann_sum` or `right_riemann_sum` raises `NameError` (and never
returns a value), because both bodies read `t.get_shape()` on the undefined
name `t` instead of the parameter `h`. -/
theorem C9_first_revision_name_error (f : ℚ → ℚ) (h : List ℚ) :
    V1.left_riemann_sum f h = Except.error "NameError: name t is not defined"
      ∧ V1.right_riemann_sum f h = Except.error "NameError: name t is not defined" :=
  ⟨rfl, rfl⟩

/-- C10: no monotonicity check exists, and a reversed (decreasing) partition
is accepted with a sign flip: `left_riemann_sum f (reverse h) =
-right_riemann_sum f h` and symmetrically. -/
theorem C10_reverse_sign_flip (f : ℚ → ℚ) (h : List ℚ) (hlen : 2 ≤ h.length) :
    left_riemann_sum f h.reverse = -right_riemann_sum f h
      ∧ right_riemann_sum f h.reverse = -left_riemann_sum f h := by
  constructor
  · rw [left_riemann_sum_eq_pairSum, right_riemann_sum_eq_pairSum, pairSum_reverse,
      ← pairSum_neg]
    exact pairSum_congr _ _ (fun a b => by ring) h
  · rw [right_riemann_sum_eq_pairSum, left_riemann_sum_eq_pairSum, pairSum_reverse,
      ← pairSum_neg]
    exact pairSum_congr _ _ (fun a b => by ring) h

/-- Witness for C10 at f(x) = x, h = [0, 1, 2]. -/
theorem C10_reverse_sign_flip_witness :
    2 ≤ ([0, 1, 2] : List ℚ).length
      ∧ (left_riemann_sum (fun x => x) ([0, 1, 2] : List ℚ).reverse
          = -right_riemann_sum (fun x => x) [0, 1, 2]
        ∧ right_riemann_sum (fun x => x) ([0, 1, 2] : List ℚ).reverse
          = -left_riemann_sum (fun x => x) [0, 1, 2]) :=
  ⟨by norm_num, C10_reverse_sign_flip (fun x => x) [0, 1, 2] (by norm_num)⟩

end TFIntegrals
